import Mathlib

/-!
Shallow embedding of the quiz-bot core from `src/telegram_bot.py`:
the Arabic normalization pipeline (`normalize_arabic`), the free-text
("term") answer matcher in `text_router`, the question sampler
(`QuestionManager.pick_round_questions`), and the round state machine
(`start_round`, `answer_callback`, `apply_answer_result`,
`send_next_question`).

Python strings are modelled as `List Char` (sequences of Unicode code
points); `String` appears only at the boundary.  Randomness
(`random.shuffle`) is modelled by a family of shuffle functions
`sh : Nat → List Question → List Question`, one per call site, about
which theorems assume only that each returns a permutation of its input.
-/

/-! ### Character classes used by the normalizer (lines 453-468) -/

/-- Python's Unicode whitespace set: the characters matched by `\s` in the
source's regexes and stripped by `str.strip()` (CPython `Py_UNICODE_ISSPACE`). -/
def isPySpace (c : Char) : Bool :=
  (0x9 ≤ c.toNat && c.toNat ≤ 0xD) || (0x1C ≤ c.toNat && c.toNat ≤ 0x1F) ||
  c.toNat == 0x20 || c.toNat == 0x85 || c.toNat == 0xA0 || c.toNat == 0x1680 ||
  (0x2000 ≤ c.toNat && c.toNat ≤ 0x200A) || c.toNat == 0x2028 || c.toNat == 0x2029 ||
  c.toNat == 0x202F || c.toNat == 0x205F || c.toNat == 0x3000

/-- `_ARABIC_DIACRITICS = re.compile(r"[ً-ٰٟـ]")` (line 453):
tashkeel marks plus the tatweel elongation character. -/
def isArabicDiacritic (c : Char) : Bool :=
  (0x64B ≤ c.toNat && c.toNat ≤ 0x65F) || c.toNat == 0x670 || c.toNat == 0x640

/-- Characters kept by `re.sub(r"[^؀-ۿ0-9\s]", " ", text)` (line 462):
the Arabic block U+0600-U+06FF, ASCII digits, and whitespace.  Everything
else (ASCII letters included) is replaced with a space. -/
def isKeptChar (c : Char) : Bool :=
  (0x600 ≤ c.toNat && c.toNat ≤ 0x6FF) || (0x30 ≤ c.toNat && c.toNat ≤ 0x39) || isPySpace c

/-- `str.strip()`: remove leading and trailing whitespace. -/
def pyStrip (l : List Char) : List Char :=
  ((l.dropWhile isPySpace).reverse.dropWhile isPySpace).reverse

/-- Worker for `re.sub(r"\s+", " ", text)`: each maximal whitespace run is
replaced by a single space.  The flag records whether the previous character
was part of a whitespace run. -/
def collapseWsAux : Bool → List Char → List Char
  | _, [] => []
  | prevWs, c :: rest =>
    if isPySpace c then
      if prevWs then collapseWsAux true rest else ' ' :: collapseWsAux true rest
    else c :: collapseWsAux false rest

/-- `re.sub(r"\s+", " ", text)` (line 463, before the final `strip`). -/
def collapseWs (l : List Char) : List Char := collapseWsAux false l

/-- The five chained `str.replace` calls of lines 466-467: hamza-bearing alef
variants to bare alef, alef-maksura to yaa, taa-marbuta to haa.  The patterns
are single characters and no target is itself a pattern, so the chain equals
one character map. -/
def foldArabicChar (c : Char) : Char :=
  if c = 'أ' ∨ c = 'إ' ∨ c = 'آ' then 'ا'
  else if c = 'ى' then 'ي'
  else if c = 'ة' then 'ه'
  else c

/-- `normalize_arabic` (lines 455-468) over code-point lists. -/
def normalizeCore (l : List Char) : List Char :=
  if l = [] then []
  else
    let t1 := pyStrip l
    let t2 := t1.filter (fun c => !isArabicDiacritic c)
    let t3 := t2.map (fun c => if isKeptChar c then c else ' ')
    let t4 := pyStrip (collapseWs t3)
    t4.map foldArabicChar

/-- `normalize_arabic` at `String` type. -/
def normalize_arabic (s : String) : String := ⟨normalizeCore s.data⟩

/-! ### The term matcher (text_router, lines 1423-1444) -/

/-- `strip_al` (lines 1437-1438): `re.sub(r"^ال", "", s)` removes one leading
occurrence of the definite article. -/
def strip_al (s : List Char) : List Char :=
  if s.take 2 = ['ا', 'ل'] then s.drop 2 else s

/-- Grading of a free-text ("term") answer (lines 1434-1440): normalize both
sides, accept on equality, or on equality after stripping a leading `ال`
from each. -/
def verifyTermAnswer (text term_ : String) : Bool :=
  let user_answer := normalizeCore text.data
  let correct_term := normalizeCore term_.data
  user_answer == correct_term || strip_al user_answer == strip_al correct_term

/-! ### Configuration constants (Config, lines 91-108) -/

/-- `Config.CHAPTERS` (lines 95-101). -/
def CHAPTERS : List String :=
  ["طبيعة العلم", "المخاليط والمحاليل", "حالات المادة", "الطاقة وتحولاتها", "أجهزة الجسم"]

/-- `Config.ROUND_SIZE` default (line 91, env default `"20"`). -/
def ROUND_SIZE : Nat := 20

/-- `Config.BONUS_CONFIG` (lines 104-108): streak threshold, message, bonus
points; Python dict iteration follows insertion order. -/
def BONUS_CONFIG : List (Nat × String × Nat) :=
  [(3, "🔥 سلسلة نار!", 1), (5, "🚀 صاروخي!", 2), (10, "👑 ملك الأسئلة!", 3)]

/-! ### Catalog entries

A question is a loosely-typed JSON record in the source; the fields below are
the ones the round logic reads.  Display-only fields (`question`, `options`,
`statement`, `definition`) are omitted.  A missing `id`/`type`/`correct` is
the empty string (the loader auto-assigns non-empty ids, line 250-252);
`answer` is the `tf` answer field, `none` when absent. -/

structure Question where
  id : String := ""
  qtype : String := ""
  correct : String := ""
  answer : Option String := none
  term : String := ""
  chapter : String := ""
deriving DecidableEq

/-! ### The sampler (`QuestionManager.pick_round_questions`, lines 341-393) -/

/-- `_build_chapter_buckets` (lines 264-271): every item is appended to the
bucket of its classified chapter, preserving catalog order; the bucket of `c`
is therefore the order-preserving filter of the catalog by the classifier.
The keyword classifier `_classify_chapter` is kept abstract as `classify`
(it always returns a member of `CHAPTERS`). -/
def buildChapterBuckets (classify : Question → String) (items : List Question)
    (c : String) : List Question :=
  items.filter (fun q => classify q == c)

/-- The stage-3 top-up loop of `pick_round_questions` (lines 370-381):
walk `all_items`, appending items whose id is unseen and which are not yet
chosen, decrementing `need` and stopping once it reaches zero. -/
def topUpLoop (seen : List String) : List Question → Nat → List Question → List Question
  | [], _, chosen => chosen
  | item :: rest, need, chosen =>
    if item.id ∉ seen ∧ item ∉ chosen then
      if need - 1 = 0 then chosen ++ [item]
      else topUpLoop seen rest (need - 1) (chosen ++ [item])
    else topUpLoop seen rest need chosen

/-- The final de-duplication pass of `pick_round_questions` (lines 384-390):
keep the first occurrence of each non-empty id (`if qid and qid not in
seen_ids`), with `ids` the accumulated id set. -/
def dedupByIds : List Question → List String → List Question
  | [], _ => []
  | q :: rest, ids =>
    if q.id ≠ "" ∧ q.id ∉ ids then q :: dedupByIds rest (q.id :: ids)
    else dedupByIds rest ids

/-! `pick_round_questions` (lines 341-393), with the loop-local values
named as standalone definitions.  `items` is the loaded catalog, `seen` the
player's seen-id set, `sh k` the `random.shuffle` at the k-th call site
(k = 0..4 the per-chapter shuffles, 5 the leftovers, 6 `all_items`, 7 the
final shuffle).  The source's `if not buckets: return []` guard only fires
when the catalog failed to load (the bucket dict otherwise always has the
five chapter keys), so it is not modelled. -/

/-- Line 356: `unseen = [q for q in pool if q.get("id") not in seen_questions]`. -/
def unseenPool (classify : Question → String) (items : List Question)
    (seen : List String) (c : String) : List Question :=
  (buildChapterBuckets classify items c).filter (fun q => decide (q.id ∉ seen))

/-- Lines 354-361, the `chosen` accumulator: from each chapter's shuffled
unseen pool take `min(target_per_chapter, len(unseen))` items. -/
def pickChosen1 (roundSize : Nat) (classify : Question → String)
    (items : List Question) (seen : List String)
    (sh : Nat → List Question → List Question) : List Question :=
  CHAPTERS.enum.flatMap fun ic =>
    (sh ic.1 (unseenPool classify items seen ic.2)).take
      (min (roundSize / CHAPTERS.length) (sh ic.1 (unseenPool classify items seen ic.2)).length)

/-- Lines 354-361, the `leftovers` accumulator: what each chapter's shuffled
unseen pool keeps beyond the per-chapter take. -/
def pickLeftovers (roundSize : Nat) (classify : Question → String)
    (items : List Question) (seen : List String)
    (sh : Nat → List Question → List Question) : List Question :=
  CHAPTERS.enum.flatMap fun ic =>
    (sh ic.1 (unseenPool classify items seen ic.2)).drop
      (min (roundSize / CHAPTERS.length) (sh ic.1 (unseenPool classify items seen ic.2)).length)

/-- Lines 364-367: if short, top up from the shuffled leftovers. -/
def pickChosen2 (roundSize : Nat) (classify : Question → String)
    (items : List Question) (seen : List String)
    (sh : Nat → List Question → List Question) : List Question :=
  if (pickChosen1 roundSize classify items seen sh).length < roundSize then
    pickChosen1 roundSize classify items seen sh ++
      (sh CHAPTERS.length (pickLeftovers roundSize classify items seen sh)).take
        (roundSize - (pickChosen1 roundSize classify items seen sh).length)
  else pickChosen1 roundSize classify items seen sh

/-- Lines 369-381: if still short, walk all shuffled items, still skipping
seen ids and already-chosen items. -/
def pickChosen3 (roundSize : Nat) (classify : Question → String)
    (items : List Question) (seen : List String)
    (sh : Nat → List Question → List Question) : List Question :=
  if (pickChosen2 roundSize classify items seen sh).length < roundSize then
    topUpLoop seen
      (sh (CHAPTERS.length + 1) (CHAPTERS.flatMap (buildChapterBuckets classify items)))
      (roundSize - (pickChosen2 roundSize classify items seen sh).length)
      (pickChosen2 roundSize classify items seen sh)
  else pickChosen2 roundSize classify items seen sh

/-- Lines 383-393: de-duplicate by id, shuffle once more, and cap at
`ROUND_SIZE`. -/
def pickRoundQuestions (roundSize : Nat) (classify : Question → String)
    (items : List Question) (seen : List String)
    (sh : Nat → List Question → List Question) : List Question :=
  (sh (CHAPTERS.length + 2)
    (dedupByIds (pickChosen3 roundSize classify items seen sh) [])).take roundSize

/-! ### The round state machine -/

/-- The round-related entries of `context.user_data` (set up in `start_round`,
lines 1230-1241), plus a `finished` flag standing for `finish_round` having
archived and cleared them. -/
structure RoundData where
  roundQuestions : List Question
  roundIndex : Nat
  currentQ : Option Question
  roundScore : Nat
  roundBonus : Nat
  roundCorrect : Nat
  roundStreak : Nat
  chapterCorrect : String → Nat
  chapterTotal : String → Nat
  awaitingTermAnswer : Bool
  finished : Bool

/-- The state `start_round` installs on success (lines 1230-1241): counters
zeroed, index 0, no question served yet. -/
def initRoundData (qs : List Question) : RoundData :=
  { roundQuestions := qs, roundIndex := 0, currentQ := none,
    roundScore := 0, roundBonus := 0, roundCorrect := 0, roundStreak := 0,
    chapterCorrect := fun _ => 0, chapterTotal := fun _ => 0,
    awaitingTermAnswer := false, finished := false }

/-- `start_round`'s gate (line 1221): `if not round_questions or
len(round_questions) < 5:` refuse; otherwise the round state is created. -/
def startRoundProceeds (round_questions : List Question) : Bool :=
  !(round_questions.isEmpty || decide (round_questions.length < 5))

/-- `finish_round` (lines 1499-1578): archives the result and pops every
round key from `user_data`; the counters themselves are only read, so the
model keeps them and records termination in `finished`. -/
def finishRound (ud : RoundData) : RoundData :=
  { ud with finished := true, currentQ := none, awaitingTermAnswer := false }

/-- `apply_answer_result` (lines 1453-1497), without the chat messages and
the external `mark_seen` database write: on a correct answer bump score,
correct count, streak and the chapter tally, then award every
`BONUS_CONFIG` entry whose threshold equals the new streak; on an incorrect
answer reset the streak.  Either way advance `round_index`. -/
def applyAnswerResult (ud : RoundData) (is_correct : Bool) : RoundData :=
  let idx := ud.roundIndex
  let chap := (ud.currentQ.map Question.chapter).getD "—"
  if is_correct then
    let ud1 := { ud with
      roundScore := ud.roundScore + 1,
      roundCorrect := ud.roundCorrect + 1,
      roundStreak := ud.roundStreak + 1,
      chapterCorrect := fun c => if c = chap then ud.chapterCorrect c + 1 else ud.chapterCorrect c }
    let streak := ud1.roundStreak
    let newBonus := BONUS_CONFIG.foldl
      (fun b e => if streak = e.1 then b + e.2.2 else b) ud1.roundBonus
    { ud1 with roundBonus := newBonus, roundIndex := idx + 1 }
  else
    { ud with roundStreak := 0, roundIndex := idx + 1 }

/-- `send_next_question` (lines 1255-1301): finish when the index has run off
the sequence; otherwise serve the question at the index (set `current_q`,
bump its chapter's served tally), flag term questions as awaiting a typed
answer, and skip questions of unknown type. -/
def sendNextLoop : Nat → RoundData → RoundData
  | 0, ud => finishRound ud
  | fuel + 1, ud =>
    let q := (ud.roundQuestions.get? ud.roundIndex).getD {}
    let ud1 : RoundData := { ud with
      currentQ := some q, awaitingTermAnswer := false,
      chapterTotal := fun c => if c = q.chapter then ud.chapterTotal c + 1 else ud.chapterTotal c }
    if q.qtype = "mcq" then ud1
    else if q.qtype = "tf" then ud1
    else if q.qtype = "term" then { ud1 with awaitingTermAnswer := true }
    else sendNextLoop fuel { ud1 with roundIndex := ud.roundIndex + 1 }

/-- `send_next_question` proper: the source's guard `if idx >= len(qs)`
becomes fuel 0 (the remaining-question count `len - idx` is the structural
measure of the skip loop; it is 0 exactly when the index has run off the
sequence, and each skip of an unknown-type question raises the index by one
while the question list is unchanged, so the fuel stays in step with
`len - idx` throughout). -/
def sendNextQuestion (ud : RoundData) : RoundData :=
  sendNextLoop (ud.roundQuestions.length - ud.roundIndex) ud

/-- `parse_tf_answer` (lines 826-840) on the string case (`None` for a
missing field; boolean and numeric JSON values are not used by the claims). -/
def parse_tf_answer : Option String → Option Bool
  | none => none
  | some raw =>
    let s : String := ⟨(pyStrip raw.data).map Char.toLower⟩
    let s_norm : String := ⟨normalizeCore s.data⟩
    if s = "true" ∨ s = "1" ∨ s_norm = "صح" ∨ s_norm = "صحيح" ∨ s_norm = "ص" ∨
        s_norm = "نعم" ∨ s_norm = "ايوه" then some true
    else if s = "false" ∨ s = "0" ∨ s_norm = "خطا" ∨ s_norm = "خطأ" ∨ s_norm = "غلط" ∨
        s_norm = "لا" ∨ s_norm = "لاء" then some false
    else none

/-- Python's truthiness-based `x or y` on `Optional[bool]` (line 1343):
`None` and `False` both fall through to `y`. -/
def pyOrOptBool : Option Bool → Option Bool → Option Bool
  | some true, _ => some true
  | _, b => b

/-- Python `data.split(":")`. -/
def splitOnChar (sep : Char) : List Char → List (List Char)
  | [] => [[]]
  | c :: rest =>
    if c = sep then [] :: splitOnChar sep rest
    else
      match splitOnChar sep rest with
      | [] => [[c]]
      | h :: t => (c :: h) :: t

/-- `answer_callback` (lines 1303-1358), for a state that has a round in
progress (`"round_questions" in context.user_data`): with no pending
question, or with callback data that does not match the pending question's
type, it only replies with an error and mutates nothing; otherwise it grades
the tapped label against the *current* question and applies the result.
There is no comparison of the callback against the question it was rendered
for. -/
def answerCallback (ud : RoundData) (data : String) : RoundData :=
  match ud.currentQ with
  | none => ud
  | some q =>
    if data = "end_round" then finishRound ud
    else if q.qtype = "mcq" ∧ "ans_mcq:".data.isPrefixOf data.data then
      let picked : String := ⟨((splitOnChar ':' data.data).get? 1).getD []⟩
      let correct : String := ⟨(pyStrip q.correct.data).map Char.toUpper⟩
      sendNextQuestion (applyAnswerResult ud (picked == correct))
    else if q.qtype = "tf" ∧ "ans_tf:".data.isPrefixOf data.data then
      let picked : String := ⟨((splitOnChar ':' data.data).get? 1).getD []⟩
      let correct_bool :=
        (pyOrOptBool (parse_tf_answer q.answer) (parse_tf_answer (some q.correct))).getD false
      sendNextQuestion (applyAnswerResult ud (picked == (if correct_bool then "true" else "false")))
    else ud

/-- A sequence of graded answers applied in order, one
`apply_answer_result` per answer. -/
def runAnswers (ud : RoundData) (l : List Bool) : RoundData :=
  l.foldl applyAnswerResult ud

/-! ### Theorems -/

/-- C4 (counterexample): after six consecutive correct answers from a fresh
round the streak is 6, a positive multiple of the configured streak length 3,
yet the sixth answer did not change the bonus counter (`BONUS_CONFIG` only
fires at streak exactly 3, 5 or 10), contradicting the claim that every
correct answer reaching a positive multiple of 3 increments the bonus by 1. -/
theorem bonus_streak_six_cex :
    (runAnswers (initRoundData []) (List.replicate 6 true)).roundStreak = 6 ∧
    6 % 3 = 0 ∧
    (runAnswers (initRoundData []) (List.replicate 6 true)).roundBonus =
      (runAnswers (initRoundData []) (List.replicate 5 true)).roundBonus := by
  refine ⟨rfl, rfl, rfl⟩

/-- C4 (amended): a correct answer changes the bonus exactly when the new
streak equals one of the configured thresholds 3, 5, 10, adding 1, 2, 3
points respectively; other streak values (6, 9, 12, ... included) leave the
bonus unchanged, and incorrect answers never change it. -/
theorem bonus_increment_characterization (ud : RoundData) :
    (applyAnswerResult ud true).roundBonus =
      ud.roundBonus + (if ud.roundStreak + 1 = 3 then 1
        else if ud.roundStreak + 1 = 5 then 2
        else if ud.roundStreak + 1 = 10 then 3 else 0) ∧
    (applyAnswerResult ud false).roundBonus = ud.roundBonus := by
  constructor
  · simp only [applyAnswerResult, BONUS_CONFIG, List.foldl, if_true]
    split_ifs <;> omega
  · rfl

/-- C5: from any state with streak 0, three consecutive correct answers add
exactly one bonus point and leave the streak at 3; a following incorrect
answer resets the streak to 0 without touching the bonus; and no graded
answer ever decreases the bonus counter. -/
theorem streak_bonus_scenario (ud : RoundData) (h : ud.roundStreak = 0) :
    (runAnswers ud [true, true, true]).roundBonus = ud.roundBonus + 1 ∧
    (runAnswers ud [true, true, true]).roundStreak = 3 ∧
    (runAnswers ud [true, true, true, false]).roundStreak = 0 ∧
    (runAnswers ud [true, true, true, false]).roundBonus = ud.roundBonus + 1 ∧
    ∀ (st : RoundData) (b : Bool), st.roundBonus ≤ (applyAnswerResult st b).roundBonus := by
  refine ⟨?_, ?_, ?_, ?_, ?_⟩
  · simp [runAnswers, applyAnswerResult, BONUS_CONFIG, h]
  · simp [runAnswers, applyAnswerResult, h]
  · simp [runAnswers, applyAnswerResult, h]
  · simp [runAnswers, applyAnswerResult, BONUS_CONFIG, h]
  · intro st b
    rcases b with _ | _
    · exact Nat.le_refl _
    · simp only [applyAnswerResult, BONUS_CONFIG, List.foldl, if_true]
      split_ifs <;> omega

/-- C5 (witness): the scenario evaluated on a fresh round. -/
theorem streak_bonus_scenario_witness :
    (runAnswers (initRoundData []) [true, true, true]).roundBonus =
      (initRoundData []).roundBonus + 1 ∧
    (runAnswers (initRoundData []) [true, true, true]).roundStreak = 3 ∧
    (runAnswers (initRoundData []) [true, true, true, false]).roundStreak = 0 ∧
    (runAnswers (initRoundData []) [true, true, true, false]).roundBonus =
      (initRoundData []).roundBonus + 1 ∧
    ∀ (st : RoundData) (b : Bool), st.roundBonus ≤ (applyAnswerResult st b).roundBonus :=
  streak_bonus_scenario (initRoundData []) rfl

/-- C7 (counterexample): with the configured `ROUND_SIZE` of 20 the claimed
policy (refuse below half of `round_size`) would reject a 7-question sample,
but `start_round` proceeds with it: its gate is the fixed constant 5. -/
theorem start_round_threshold_cex :
    startRoundProceeds (List.replicate 7 ({} : Question)) = true ∧
    (List.replicate 7 ({} : Question)).length < ROUND_SIZE / 2 := by
  refine ⟨rfl, by decide⟩

/-- C7 (amended): `start_round` refuses to create a round state exactly when
the sampled sequence has fewer than 5 questions, a fixed constant independent
of `round_size`; otherwise it proceeds with whatever was sampled. -/
theorem start_round_min_five (qs : List Question) :
    startRoundProceeds qs = true ↔ 5 ≤ qs.length := by
  simp only [startRoundProceeds, Bool.not_eq_true', Bool.or_eq_false_iff,
    List.isEmpty_eq_false, decide_eq_false_iff_not, Nat.not_lt,
    ← List.length_pos, ne_eq, ← List.length_eq_zero]
  omega

/-- `strip_al` removes exactly two characters when the definite article is
present and none otherwise. -/
theorem strip_al_length_cases (s : List Char) :
    (s.take 2 = ['ا', 'ل'] ∧ 2 ≤ s.length ∧ (strip_al s).length + 2 = s.length) ∨
    (s.take 2 ≠ ['ا', 'ل'] ∧ (strip_al s).length = s.length) := by
  by_cases h : s.take 2 = ['ا', 'ل']
  · left
    have h2 : 2 ≤ s.length := by
      have hl := congrArg List.length h
      simp only [List.length_take, List.length_cons, List.length_nil] at hl
      omega
    refine ⟨h, h2, ?_⟩
    simp only [strip_al, if_pos h, List.length_drop]
    omega
  · right
    exact ⟨h, by simp only [strip_al, if_neg h]⟩

/-- C3 (counterexample): the canonical answer `"الطاقة الحركية"` normalizes to
14 characters (more than 7); the response `"الطاقة الحركيية"` normalizes to
that string with exactly one character inserted, yet the matcher grades it
incorrect — there is no fuzzy-similarity fallback in the code. -/
theorem term_one_insertion_cex :
    7 < (normalize_arabic "الطاقة الحركية").data.length ∧
    (normalize_arabic "الطاقة الحركيية").data =
      List.insertIdx 13 'ي' (normalize_arabic "الطاقة الحركية").data ∧
    verifyTermAnswer "الطاقة الحركيية" "الطاقة الحركية" = false := by
  refine ⟨by decide, rfl, rfl⟩

/-- C3 (amended): a response whose normalization is exactly one character
longer than the normalized canonical answer — in particular one obtained by
inserting a single character — is always graded incorrect: the matcher only
accepts exact normalized equality, or equality after dropping a leading `ال`
from each side, and both are impossible at these lengths. -/
theorem term_longer_by_one_rejected (resp canon : String)
    (h : (normalizeCore resp.data).length = (normalizeCore canon.data).length + 1) :
    verifyTermAnswer resp canon = false := by
  simp only [verifyTermAnswer, Bool.or_eq_false_iff, beq_eq_false_iff_ne, ne_eq]
  constructor
  · intro he
    have := congrArg List.length he
    omega
  · intro he
    have hl := congrArg List.length he
    rcases strip_al_length_cases (normalizeCore resp.data) with ⟨_, h2, h3⟩ | ⟨_, h3⟩ <;>
      rcases strip_al_length_cases (normalizeCore canon.data) with ⟨_, h2', h3'⟩ | ⟨_, h3'⟩ <;>
      omega

/-- C3 (witness): the amended statement evaluated on the spec's own example. -/
theorem term_longer_by_one_rejected_witness :
    (normalizeCore "الطاقة الحركيية".data).length =
      (normalizeCore "الطاقة الحركية".data).length + 1 ∧
    verifyTermAnswer "الطاقة الحركيية" "الطاقة الحركية" = false :=
  ⟨by decide, term_longer_by_one_rejected "الطاقة الحركيية" "الطاقة الحركية" (by decide)⟩

/-- C10 (counterexample): prepending `ال` to a canonical term that already
begins with `ال` is rejected: for the term `"الطاقة"` the response
`"الالطاقة"` (its normalization being exactly `ال` prepended to the
normalized term) is graded incorrect, because stripping one leading `ال`
from each side leaves `الطاقه` versus `طاقه`. -/
theorem term_prepend_al_cex :
    (normalize_arabic "الالطاقة").data = 'ا' :: 'ل' :: (normalize_arabic "الطاقة").data ∧
    verifyTermAnswer "الالطاقة" "الطاقة" = false := by
  refine ⟨rfl, rfl⟩

/-- C10 (amended): a term answer is graded correct exactly when the two
normalizations are equal, or become equal after removing one leading `ال`
from each; consequently the canonical term with `ال` prepended is accepted
whenever the normalized term does not itself start with `ال`, and the
canonical term with its leading `ال` removed is accepted whenever the
remainder does not start with `ال` again.  No other (partial or fuzzy)
match is accepted. -/
theorem term_match_characterization :
    (∀ resp canon : String,
      verifyTermAnswer resp canon = true ↔
        (normalizeCore resp.data = normalizeCore canon.data ∨
         strip_al (normalizeCore resp.data) = strip_al (normalizeCore canon.data))) ∧
    (∀ resp canon : String,
      (normalizeCore canon.data).take 2 ≠ ['ا', 'ل'] →
      normalizeCore resp.data = 'ا' :: 'ل' :: normalizeCore canon.data →
      verifyTermAnswer resp canon = true) ∧
    (∀ (resp canon : String) (rest : List Char),
      normalizeCore canon.data = 'ا' :: 'ل' :: rest →
      rest.take 2 ≠ ['ا', 'ل'] →
      normalizeCore resp.data = rest →
      verifyTermAnswer resp canon = true) := by
  refine ⟨?_, ?_, ?_⟩
  · intro resp canon
    simp [verifyTermAnswer]
  · intro resp canon hc hr
    simp only [verifyTermAnswer, Bool.or_eq_true, beq_iff_eq, hr]
    right
    simp only [strip_al, List.take_cons, List.take_zero, if_pos rfl, List.drop_succ_cons,
      List.drop_zero, if_neg hc]
    simp
  · intro resp canon rest hc hrest hr
    simp only [verifyTermAnswer, Bool.or_eq_true, beq_iff_eq, hr, hc]
    right
    simp only [strip_al, List.take_cons, List.take_zero, if_neg hrest, List.drop_succ_cons,
      List.drop_zero]
    simp

/-- C10 (witness): the characterization applied to the term `"طاقة"`: the
article-prefixed response `"الطاقة"` is accepted. -/
theorem term_match_characterization_witness :
    verifyTermAnswer "الطاقة" "طاقة" = true :=
  term_match_characterization.2.1 "الطاقة" "طاقة" (by decide) (by decide)

/-- Python `split` on a separator-free string returns the whole string. -/
theorem splitOnChar_of_not_mem {sep : Char} {l : List Char} (h : sep ∉ l) :
    splitOnChar sep l = [l] := by
  induction l with
  | nil => rfl
  | cons c rest ih =>
    have hc : ¬ c = sep := fun hcs => h (hcs ▸ List.mem_cons_self c rest)
    have hr : sep ∉ rest := fun hm => h (List.mem_cons_of_mem c hm)
    simp only [splitOnChar, if_neg hc, ih hr]

/-- Python `split` peels off a separator-free chunk before the first
separator. -/
theorem splitOnChar_append {sep : Char} {p : List Char} (r : List Char) (h : sep ∉ p) :
    splitOnChar sep (p ++ sep :: r) = p :: splitOnChar sep r := by
  induction p with
  | nil => simp [splitOnChar]
  | cons c p' ih =>
    have hc : ¬ c = sep := fun hcs => h (hcs ▸ List.mem_cons_self c p')
    have hp : sep ∉ p' := fun hm => h (List.mem_cons_of_mem c hm)
    simp only [List.cons_append, splitOnChar, if_neg hc]
    rw [List.append_eq, ih hp]

/-- Projections of `apply_answer_result` used when chaining grading steps. -/
theorem applyAnswerResult_fields (ud : RoundData) (b : Bool) :
    (applyAnswerResult ud b).roundScore = ud.roundScore + (if b then 1 else 0) ∧
    (applyAnswerResult ud b).roundIndex = ud.roundIndex + 1 ∧
    (applyAnswerResult ud b).roundQuestions = ud.roundQuestions ∧
    (applyAnswerResult ud b).currentQ = ud.currentQ := by
  rcases b with _ | _ <;> simp [applyAnswerResult]

/-- Serving the next question never changes the score or the question list. -/
theorem sendNextLoop_preserves (fuel : Nat) (ud : RoundData) :
    (sendNextLoop fuel ud).roundScore = ud.roundScore ∧
    (sendNextLoop fuel ud).roundQuestions = ud.roundQuestions := by
  induction fuel generalizing ud with
  | zero => exact ⟨rfl, rfl⟩
  | succ f ih =>
    simp only [sendNextLoop]
    split
    · exact ⟨rfl, rfl⟩
    split
    · exact ⟨rfl, rfl⟩
    split
    · exact ⟨rfl, rfl⟩
    exact ih _

/-- One `answer_callback` on a pending mcq question with payload
`"ans_mcq:" ++ lab` grades `lab` against the pending question's canonical
label and hands the graded result to `apply_answer_result` and
`send_next_question`. -/
theorem answerCallback_mcq_step (ud : RoundData) (q : Question) (lab : String)
    (h0 : ud.currentQ = some q) (ht : q.qtype = "mcq") (hlab : ':' ∉ lab.data) :
    answerCallback ud ("ans_mcq:" ++ lab) =
      sendNextQuestion (applyAnswerResult ud
        (lab == (⟨(pyStrip q.correct.data).map Char.toUpper⟩ : String))) := by
  have hdata : ("ans_mcq:" ++ lab).data = "ans_mcq:".data ++ lab.data := by
    rfl
  have hne : ¬ ("ans_mcq:" ++ lab) = "end_round" := by
    intro h
    have h2 : ("ans_mcq:" ++ lab).data = "end_round".data := congrArg String.data h
    rw [hdata] at h2
    have h3 : ('a' :: ("ns_mcq:".data ++ lab.data)) = 'e' :: "nd_round".data := h2
    injection h3 with h4 _
    exact absurd h4 (by decide)
  have hpre : "ans_mcq:".data.isPrefixOf ("ans_mcq:" ++ lab).data = true := by
    rw [hdata, List.isPrefixOf_iff_prefix]
    exact List.prefix_append _ _
  have hsplit : splitOnChar ':' ("ans_mcq:" ++ lab).data =
      "ans_mcq".data :: [lab.data] := by
    rw [hdata]
    have : "ans_mcq:".data ++ lab.data = "ans_mcq".data ++ ':' :: lab.data := rfl
    rw [this, splitOnChar_append _ (by decide), splitOnChar_of_not_mem hlab]
  simp only [answerCallback, h0, if_neg hne, ht, hpre, true_and, if_pos, hsplit,
    List.get?_cons_succ, List.get?_cons_zero, Option.getD_some]

/-- C6 (counterexample): a two-question round of mcq questions whose correct
label is `A`; the player double-taps `A` on the first question.  The first
callback scores it (score 1) and serves the second question; the second
callback is not rejected as stale — it is graded against the now-current
second question and raises the score to 2. -/
theorem double_tap_mutates_cex :
    (answerCallback (sendNextQuestion (initRoundData
      [{ id := "q0", qtype := "mcq", correct := "A", chapter := "حالات المادة" },
       { id := "q1", qtype := "mcq", correct := "A", chapter := "حالات المادة" }]))
      "ans_mcq:A").roundScore = 1 ∧
    (answerCallback (answerCallback (sendNextQuestion (initRoundData
      [{ id := "q0", qtype := "mcq", correct := "A", chapter := "حالات المادة" },
       { id := "q1", qtype := "mcq", correct := "A", chapter := "حالات المادة" }]))
      "ans_mcq:A") "ans_mcq:A").roundScore = 2 := by
  refine ⟨rfl, rfl⟩

/-- C6 (amended): `answer_callback` has no stale-submission detection.  When
a second mcq submission arrives after the position has already advanced to
another mcq question, it is graded against that new current question: the
score grows by 1 exactly when the tapped label matches the *new* question's
canonical label (and the round position advances again). -/
theorem answer_callback_regrades (ud : RoundData) (q0 q1 : Question) (lab : String)
    (h0 : ud.currentQ = some q0) (ht0 : q0.qtype = "mcq")
    (hidx : ud.roundIndex + 1 < ud.roundQuestions.length)
    (hq1 : ud.roundQuestions.get? (ud.roundIndex + 1) = some q1)
    (ht1 : q1.qtype = "mcq") (hlab : ':' ∉ lab.data) :
    (answerCallback (answerCallback ud ("ans_mcq:" ++ lab)) ("ans_mcq:" ++ lab)).roundScore =
      (answerCallback ud ("ans_mcq:" ++ lab)).roundScore +
        (if lab = (⟨(pyStrip q1.correct.data).map Char.toUpper⟩ : String) then 1 else 0) := by
  set b0 := (lab == (⟨(pyStrip q0.correct.data).map Char.toUpper⟩ : String)) with hb0
  obtain ⟨hA_score, hA_idx, hA_qs, hA_cq⟩ := applyAnswerResult_fields ud b0
  set A := applyAnswerResult ud b0 with hA
  have hstep1 : answerCallback ud ("ans_mcq:" ++ lab) = sendNextQuestion A :=
    answerCallback_mcq_step ud q0 lab h0 ht0 hlab
  -- the serve after the first grading lands on q1 and stops there
  have hfuel : A.roundQuestions.length - A.roundIndex =
      (ud.roundQuestions.length - (ud.roundIndex + 1) - 1) + 1 := by
    rw [hA_qs, hA_idx]; omega
  have hst1 : sendNextQuestion A = { A with
      currentQ := some q1, awaitingTermAnswer := false,
      chapterTotal := fun c => if c = q1.chapter then A.chapterTotal c + 1 else A.chapterTotal c } := by
    rw [sendNextQuestion, hfuel]
    simp only [sendNextLoop, hA_qs, hA_idx, hq1, Option.getD_some, ht1, if_pos]
  have hst1_cq : (answerCallback ud ("ans_mcq:" ++ lab)).currentQ = some q1 := by
    rw [hstep1, hst1]
  have hst1_score : (answerCallback ud ("ans_mcq:" ++ lab)).roundScore = A.roundScore := by
    rw [hstep1, hst1]
  have hstep2 : answerCallback (answerCallback ud ("ans_mcq:" ++ lab)) ("ans_mcq:" ++ lab) =
      sendNextQuestion (applyAnswerResult (answerCallback ud ("ans_mcq:" ++ lab))
        (lab == (⟨(pyStrip q1.correct.data).map Char.toUpper⟩ : String))) :=
    answerCallback_mcq_step _ q1 lab hst1_cq ht1 hlab
  rw [hstep2, sendNextQuestion,
    (sendNextLoop_preserves _ _).1,
    (applyAnswerResult_fields _ _).1, hst1_score]
  rcases eq_or_ne lab (⟨(pyStrip q1.correct.data).map Char.toUpper⟩ : String) with he | he
  · simp [he]
  · simp [he, beq_eq_false_iff_ne.mpr he]

/-- C6 (witness): the regrading theorem evaluated on the concrete double-tap
round: the second tap of `A` adds a point because the second question's
canonical label is also `A`. -/
theorem answer_callback_regrades_witness :
    (answerCallback (answerCallback (sendNextQuestion (initRoundData
      [{ id := "q0", qtype := "mcq", correct := "A", chapter := "حالات المادة" },
       { id := "q1", qtype := "mcq", correct := "B", chapter := "حالات المادة" }]))
      "ans_mcq:A") "ans_mcq:A").roundScore =
      (answerCallback (sendNextQuestion (initRoundData
      [{ id := "q0", qtype := "mcq", correct := "A", chapter := "حالات المادة" },
       { id := "q1", qtype := "mcq", correct := "B", chapter := "حالات المادة" }]))
      "ans_mcq:A").roundScore +
        (if ("A" : String) =
          (⟨(pyStrip ("B" : String).data).map Char.toUpper⟩ : String) then 1 else 0) :=
  answer_callback_regrades _
    { id := "q0", qtype := "mcq", correct := "A", chapter := "حالات المادة" }
    { id := "q1", qtype := "mcq", correct := "B", chapter := "حالات المادة" }
    "A" rfl rfl (by decide) rfl rfl (by decide)

/-! ### Properties of the normalization pipeline (for C8 and C9) -/

/-- Adjacent characters are not both whitespace. -/
def NoWsPair (a b : Char) : Prop := ¬(isPySpace a = true ∧ isPySpace b = true)

/-- A character that the pipeline can emit: kept by the character filter,
not a diacritic, fixed by the alef/yaa/haa folding, and equal to `' '` if it
is whitespace at all. -/
def NormalChar (c : Char) : Prop :=
  isKeptChar c = true ∧ isArabicDiacritic c = false ∧ foldArabicChar c = c ∧
    (isPySpace c = true → c = ' ')

/-- Normal form of the pipeline's output: every character is a
`NormalChar`, no two adjacent characters are whitespace, and the string
neither starts nor ends with whitespace. -/
def NormalForm (l : List Char) : Prop :=
  (∀ c ∈ l, NormalChar c) ∧ l.Chain' NoWsPair ∧
  (∀ c, l.head? = some c → isPySpace c = false) ∧
  (∀ c, l.getLast? = some c → isPySpace c = false)

theorem head?_dropWhile {p : Char → Bool} {l : List Char} {c : Char}
    (h : (l.dropWhile p).head? = some c) : p c = false := by
  induction l with
  | nil => simp [List.dropWhile] at h
  | cons a l ih =>
    by_cases hp : p a
    · rw [List.dropWhile_cons_of_pos hp] at h
      exact ih h
    · rw [List.dropWhile_cons_of_neg hp] at h
      simp only [List.head?_cons, Option.some.injEq] at h
      subst h
      exact Bool.eq_false_iff.mpr hp

theorem dropWhile_eq_self_of_head {p : Char → Bool} {l : List Char}
    (h : ∀ c, l.head? = some c → p c = false) : l.dropWhile p = l := by
  cases l with
  | nil => rfl
  | cons a l =>
    have := h a rfl
    rw [List.dropWhile_cons_of_neg (by simp [this])]

/-- Stripping changes nothing when the ends are already non-whitespace. -/
theorem pyStrip_eq_self {l : List Char}
    (hh : ∀ c, l.head? = some c → isPySpace c = false)
    (hl : ∀ c, l.getLast? = some c → isPySpace c = false) : pyStrip l = l := by
  unfold pyStrip
  rw [dropWhile_eq_self_of_head (fun c hc => hh c hc)]
  rw [dropWhile_eq_self_of_head (fun c hc => hl c ((List.head?_reverse l) ▸ hc))]
  exact List.reverse_reverse l

theorem mem_pyStrip {l : List Char} {c : Char} (h : c ∈ pyStrip l) : c ∈ l := by
  unfold pyStrip at h
  rw [List.mem_reverse] at h
  have h1 := (List.dropWhile_sublist isPySpace).subset h
  rw [List.mem_reverse] at h1
  exact (List.dropWhile_sublist isPySpace).subset h1

theorem head?_pyStrip {l : List Char} {c : Char} (h : (pyStrip l).head? = some c) :
    isPySpace c = false := by
  unfold pyStrip at h
  rw [List.head?_reverse] at h
  -- the last element of the inner dropWhile is the last of what it is a suffix of
  rcases hsuf : (l.dropWhile isPySpace).reverse.dropWhile isPySpace with _ | ⟨a, m⟩
  · rw [hsuf] at h; simp at h
  · have hne : (l.dropWhile isPySpace).reverse.dropWhile isPySpace ≠ [] := by
      rw [hsuf]; exact List.cons_ne_nil a m
    obtain ⟨t, ht⟩ := List.dropWhile_suffix (l := (l.dropWhile isPySpace).reverse) isPySpace
    have hlast : ((l.dropWhile isPySpace).reverse.dropWhile isPySpace).getLast? =
        ((l.dropWhile isPySpace).reverse).getLast? := by
      conv_rhs => rw [← ht]
      exact (List.getLast?_append_of_ne_nil t hne).symm
    rw [hlast, List.getLast?_reverse] at h
    exact head?_dropWhile h

theorem getLast?_pyStrip {l : List Char} {c : Char} (h : (pyStrip l).getLast? = some c) :
    isPySpace c = false := by
  unfold pyStrip at h
  rw [List.getLast?_reverse] at h
  exact head?_dropWhile h

theorem chain'_pyStrip {l : List Char} (h : l.Chain' NoWsPair) :
    (pyStrip l).Chain' NoWsPair := by
  have step : ∀ (m : List Char), m.Chain' NoWsPair → (m.dropWhile isPySpace).Chain' NoWsPair := by
    intro m hm
    obtain ⟨t, ht⟩ := List.dropWhile_suffix (l := m) isPySpace
    rw [← ht] at hm
    exact (List.chain'_append.mp hm).2.1
  have hsymm : ∀ (m : List Char), m.Chain' NoWsPair → m.reverse.Chain' NoWsPair := by
    intro m hm
    rw [List.chain'_reverse]
    exact hm.imp (fun a b hab h => hab ⟨h.2, h.1⟩)
  exact hsymm _ (step _ (hsymm _ (step _ h)))

theorem mem_collapseWsAux {b : Bool} {l : List Char} {c : Char}
    (h : c ∈ collapseWsAux b l) : c ∈ l ∨ c = ' ' := by
  induction l generalizing b with
  | nil => simp [collapseWsAux] at h
  | cons a l ih =>
    by_cases ha : isPySpace a
    · rcases b with _ | _
      · rw [collapseWsAux, if_pos ha, if_neg (by simp)] at h
        rcases List.mem_cons.mp h with hc | hc
        · right; exact hc
        · rcases ih hc with hc' | hc'
          · left; exact List.mem_cons_of_mem a hc'
          · right; exact hc'
      · rw [collapseWsAux, if_pos ha, if_pos rfl] at h
        rcases ih h with hc' | hc'
        · left; exact List.mem_cons_of_mem a hc'
        · right; exact hc'
    · rw [collapseWsAux, if_neg ha] at h
      rcases List.mem_cons.mp h with hc | hc
      · left; exact hc ▸ List.mem_cons_self a l
      · rcases ih hc with hc' | hc'
        · left; exact List.mem_cons_of_mem a hc'
        · right; exact hc'

theorem ws_collapseWsAux {b : Bool} {l : List Char} {c : Char}
    (h : c ∈ collapseWsAux b l) (hws : isPySpace c = true) : c = ' ' := by
  induction l generalizing b with
  | nil => simp [collapseWsAux] at h
  | cons a l ih =>
    by_cases ha : isPySpace a
    · rcases b with _ | _
      · rw [collapseWsAux, if_pos ha, if_neg (by simp)] at h
        rcases List.mem_cons.mp h with hc | hc
        · exact hc
        · exact ih hc
      · rw [collapseWsAux, if_pos ha, if_pos rfl] at h
        exact ih h
    · rw [collapseWsAux, if_neg ha] at h
      rcases List.mem_cons.mp h with hc | hc
      · exact absurd (hc ▸ hws) (by simp [ha])
      · exact ih hc

theorem head?_collapseWsAux_true {l : List Char} {c : Char}
    (h : (collapseWsAux true l).head? = some c) : isPySpace c = false := by
  induction l with
  | nil => simp [collapseWsAux] at h
  | cons a l ih =>
    by_cases ha : isPySpace a
    · rw [collapseWsAux, if_pos ha, if_pos rfl] at h
      exact ih h
    · rw [collapseWsAux, if_neg ha] at h
      simp only [List.head?_cons, Option.some.injEq] at h
      subst h
      exact Bool.eq_false_iff.mpr ha

theorem chain'_collapseWsAux (b : Bool) (l : List Char) :
    (collapseWsAux b l).Chain' NoWsPair := by
  induction l generalizing b with
  | nil => simp [collapseWsAux]
  | cons a l ih =>
    by_cases ha : isPySpace a
    · rcases b with _ | _
      · rw [collapseWsAux, if_pos ha, if_neg (by simp)]
        rw [List.chain'_cons']
        refine ⟨?_, ih true⟩
        intro y hy
        intro ⟨_, hy2⟩
        rw [head?_collapseWsAux_true hy] at hy2
        exact Bool.false_ne_true hy2
      · rw [collapseWsAux, if_pos ha, if_pos rfl]
        exact ih true
    · rw [collapseWsAux, if_neg ha]
      rw [List.chain'_cons']
      refine ⟨?_, ih false⟩
      intro y _
      intro ⟨ha2, _⟩
      exact ha (by simp [ha2])

/-- Collapsing changes nothing on a string whose whitespace is already
single spaces with no two adjacent. -/
theorem collapseWsAux_eq_self {l : List Char} (b : Bool)
    (hch : l.Chain' NoWsPair) (hsp : ∀ c ∈ l, isPySpace c = true → c = ' ')
    (hb : b = true → ∀ c, l.head? = some c → isPySpace c = false) :
    collapseWsAux b l = l := by
  induction l generalizing b with
  | nil => rfl
  | cons a l ih =>
    by_cases ha : isPySpace a
    · rcases b with _ | _
      · rw [collapseWsAux, if_pos ha, if_neg (by simp)]
        have ha' : a = ' ' := hsp a (List.mem_cons_self a l) ha
        rw [ha']
        congr 1
        refine ih true ?_ ?_ ?_
        · exact (List.chain'_cons'.mp hch).2
        · exact fun c hc => hsp c (List.mem_cons_of_mem a hc)
        · intro _ c hc
          have hthis := (List.chain'_cons'.mp hch).1 c hc
          unfold NoWsPair at hthis
          rcases hws : isPySpace c with _ | _
          · rfl
          · exact absurd ⟨ha, hws⟩ hthis
      · exact absurd ha (by simp [hb rfl a rfl])
    · rw [collapseWsAux, if_neg ha]
      congr 1
      refine ih false ?_ ?_ ?_
      · exact (List.chain'_cons'.mp hch).2
      · exact fun c hc => hsp c (List.mem_cons_of_mem a hc)
      · exact fun h => absurd h (by simp)

theorem foldArabicChar_ws (c : Char) : isPySpace (foldArabicChar c) = isPySpace c := by
  unfold foldArabicChar
  split_ifs with h1 h2 h3
  · rcases h1 with h | h | h <;> subst h <;> decide
  · subst h2; decide
  · subst h3; decide
  · rfl

theorem foldArabicChar_kept {c : Char} (h : isKeptChar c = true) :
    isKeptChar (foldArabicChar c) = true := by
  unfold foldArabicChar
  split_ifs <;> first | decide | exact h

theorem foldArabicChar_nondiac {c : Char} (h : isArabicDiacritic c = false) :
    isArabicDiacritic (foldArabicChar c) = false := by
  unfold foldArabicChar
  split_ifs <;> first | decide | exact h

theorem foldArabicChar_idem (c : Char) :
    foldArabicChar (foldArabicChar c) = foldArabicChar c := by
  by_cases h1 : c = 'أ' ∨ c = 'إ' ∨ c = 'آ'
  · have : foldArabicChar c = 'ا' := by unfold foldArabicChar; rw [if_pos h1]
    rw [this]; decide
  · by_cases h2 : c = 'ى'
    · have : foldArabicChar c = 'ي' := by
        unfold foldArabicChar; rw [if_neg h1, if_pos h2]
      rw [this]; decide
    · by_cases h3 : c = 'ة'
      · have : foldArabicChar c = 'ه' := by
          unfold foldArabicChar; rw [if_neg h1, if_neg h2, if_pos h3]
        rw [this]; decide
      · have : foldArabicChar c = c := by
          unfold foldArabicChar; rw [if_neg h1, if_neg h2, if_neg h3]
        rw [this, this]

theorem map_eq_self_of_fixed {f : Char → Char} {l : List Char} (h : ∀ c ∈ l, f c = c) :
    l.map f = l := by
  induction l with
  | nil => rfl
  | cons a t ih =>
    simp only [List.map_cons, h a (List.mem_cons_self a t),
      ih (fun c hc => h c (List.mem_cons_of_mem a hc))]

/-- Every output of the normalization pipeline is in normal form. -/
theorem normalForm_normalizeCore (l : List Char) : NormalForm (normalizeCore l) := by
  by_cases hl : l = []
  · subst hl
    exact ⟨fun c hc => by simp [normalizeCore] at hc, by simp [normalizeCore],
      fun c hc => by simp [normalizeCore] at hc, fun c hc => by simp [normalizeCore] at hc⟩
  · have hcore : normalizeCore l =
        (pyStrip (collapseWs (((pyStrip l).filter (fun c => !isArabicDiacritic c)).map
          (fun c => if isKeptChar c then c else ' ')))).map foldArabicChar := by
      unfold normalizeCore
      rw [if_neg hl]
    rw [hcore]
    set t3 := ((pyStrip l).filter (fun c => !isArabicDiacritic c)).map
        (fun c => if isKeptChar c then c else ' ') with ht3
    set t4 := pyStrip (collapseWs t3) with ht4
    have f1 : ∀ c ∈ t3, isKeptChar c = true ∧ isArabicDiacritic c = false := by
      intro c hc
      rw [ht3] at hc
      obtain ⟨x, hx, hfx⟩ := List.mem_map.mp hc
      by_cases hk : isKeptChar x
      · rw [if_pos hk] at hfx
        subst hfx
        refine ⟨hk, ?_⟩
        have := List.of_mem_filter hx
        simpa using this
      · rw [if_neg hk] at hfx
        subst hfx
        exact ⟨by decide, by decide⟩
    have f2 : ∀ c ∈ t4, isKeptChar c = true ∧ isArabicDiacritic c = false ∧
        (isPySpace c = true → c = ' ') := by
      intro c hc
      have hc2 : c ∈ collapseWs t3 := mem_pyStrip hc
      have hcases := mem_collapseWsAux (b := false) hc2
      rcases hcases with hc3 | hc3
      · exact ⟨(f1 c hc3).1, (f1 c hc3).2, fun hw => ws_collapseWsAux hc2 hw⟩
      · subst hc3
        exact ⟨by decide, by decide, fun _ => rfl⟩
    have f3 : t4.Chain' NoWsPair := chain'_pyStrip (chain'_collapseWsAux false t3)
    refine ⟨?_, ?_, ?_, ?_⟩
    · intro c hc
      obtain ⟨d, hd, hfd⟩ := List.mem_map.mp hc
      obtain ⟨hk, hnd, hws⟩ := f2 d hd
      subst hfd
      refine ⟨foldArabicChar_kept hk, foldArabicChar_nondiac hnd, foldArabicChar_idem d, ?_⟩
      intro hw
      rw [foldArabicChar_ws d] at hw
      rw [hws hw]
      decide
    · rw [List.chain'_map]
      refine f3.imp ?_
      intro a b hab h
      rw [foldArabicChar_ws a, foldArabicChar_ws b] at h
      exact hab h
    · intro c hc
      rw [List.head?_map] at hc
      obtain ⟨d, hd, hfd⟩ := Option.map_eq_some'.mp hc
      subst hfd
      rw [foldArabicChar_ws d]
      exact head?_pyStrip hd
    · intro c hc
      rw [List.getLast?_map] at hc
      obtain ⟨d, hd, hfd⟩ := Option.map_eq_some'.mp hc
      subst hfd
      rw [foldArabicChar_ws d]
      exact getLast?_pyStrip hd

/-- The normalization pipeline fixes every string in normal form. -/
theorem normalizeCore_eq_self {l : List Char} (h : NormalForm l) : normalizeCore l = l := by
  obtain ⟨hch, hchain, hh, hl⟩ := h
  by_cases hnil : l = []
  · subst hnil; rfl
  · have hcore : normalizeCore l =
        (pyStrip (collapseWs (((pyStrip l).filter (fun c => !isArabicDiacritic c)).map
          (fun c => if isKeptChar c then c else ' ')))).map foldArabicChar := by
      unfold normalizeCore
      rw [if_neg hnil]
    rw [hcore]
    have h1 : pyStrip l = l := pyStrip_eq_self hh hl
    rw [h1]
    have h2 : l.filter (fun c => !isArabicDiacritic c) = l := by
      rw [List.filter_eq_self]
      intro a ha
      simp [(hch a ha).2.1]
    rw [h2]
    have h3 : l.map (fun c => if isKeptChar c then c else ' ') = l :=
      map_eq_self_of_fixed (fun c hc => by rw [if_pos ((hch c hc).1)])
    rw [h3]
    have h4 : collapseWs l = l :=
      collapseWsAux_eq_self false hchain (fun c hc hw => (hch c hc).2.2.2 hw)
        (fun hb => absurd hb (by simp))
    rw [h4, h1]
    exact map_eq_self_of_fixed (fun c hc => (hch c hc).2.2.1)

/-- C9: the normalization pipeline is idempotent: normalizing an already
normalized string changes nothing. -/
theorem normalize_idempotent (s : String) :
    normalize_arabic (normalize_arabic s) = normalize_arabic s :=
  congrArg String.mk (normalizeCore_eq_self (normalForm_normalizeCore s.data))

/-- C8 (counterexample): the claim predicts that ASCII letters survive
normalization (lowercased), so `"ab"` would normalize to `"ab"`; the code's
character class keeps only the Arabic block, digits and whitespace, so both
letters are replaced by spaces and then stripped, leaving the empty string. -/
theorem normalize_ascii_cex :
    normalize_arabic "ab" = "" ∧ normalize_arabic "ab" ≠ "ab" := by
  refine ⟨rfl, by decide⟩

/-- C8 (amended): the pipeline replaces with a space exactly the characters
outside the Arabic block U+0600-U+06FF, the ASCII digits and whitespace:
every character of any normalized output is an Arabic-block character, an
ASCII digit, or the single space; in particular no ASCII letter (upper or
lower case) ever survives, and no lowercasing takes place. -/
theorem normalize_output_chars (s : String) :
    ∀ c ∈ (normalize_arabic s).data,
      ((0x600 ≤ c.toNat ∧ c.toNat ≤ 0x6FF) ∨ (0x30 ≤ c.toNat ∧ c.toNat ≤ 0x39) ∨ c = ' ') ∧
      ¬(0x41 ≤ c.toNat ∧ c.toNat ≤ 0x5A) ∧ ¬(0x61 ≤ c.toNat ∧ c.toNat ≤ 0x7A) := by
  intro c hc
  obtain ⟨hk, _, _, hws⟩ := (normalForm_normalizeCore s.data).1 c hc
  unfold isKeptChar at hk
  simp only [Bool.or_eq_true, Bool.and_eq_true, decide_eq_true_eq] at hk
  have hmain : (0x600 ≤ c.toNat ∧ c.toNat ≤ 0x6FF) ∨
      (0x30 ≤ c.toNat ∧ c.toNat ≤ 0x39) ∨ c = ' ' := by
    rcases hk with (hk | hk) | hk
    · exact Or.inl hk
    · exact Or.inr (Or.inl hk)
    · exact Or.inr (Or.inr (hws hk))
  refine ⟨hmain, ?_, ?_⟩ <;>
    rcases hmain with hr | hr | hr <;>
    first
      | omega
      | (rw [hr]; intro hcon; revert hcon; decide)

/-- C8 (witness): the amended characterization evaluated on a concrete
normalized character. -/
theorem normalize_output_chars_witness :
    'ا' ∈ (normalize_arabic "ا").data ∧
    (((0x600 ≤ 'ا'.toNat ∧ 'ا'.toNat ≤ 0x6FF) ∨ (0x30 ≤ 'ا'.toNat ∧ 'ا'.toNat ≤ 0x39) ∨
       'ا' = ' ') ∧
     ¬(0x41 ≤ 'ا'.toNat ∧ 'ا'.toNat ≤ 0x5A) ∧ ¬(0x61 ≤ 'ا'.toNat ∧ 'ا'.toNat ≤ 0x7A)) :=
  ⟨by decide, normalize_output_chars "ا" 'ا' (by decide)⟩

/-! ### Sampler lemmas (for C1 and C2) -/

theorem append_exchange_perm {α : Type} (x X y Y : List α) :
    List.Perm ((x ++ X) ++ (y ++ Y)) ((x ++ y) ++ (X ++ Y)) := by
  rw [List.append_assoc, List.append_assoc]
  exact (List.perm_append_comm_assoc X y Y).append_left x

theorem flatMap_append_perm {α β : Type} (l : List α) (f g : α → List β) :
    List.Perm (l.flatMap f ++ l.flatMap g) (l.flatMap fun a => f a ++ g a) := by
  induction l with
  | nil => simp
  | cons a t ih =>
    simp only [List.flatMap_cons]
    exact (append_exchange_perm (f a) (t.flatMap f) (g a) (t.flatMap g)).trans
      (ih.append_left (f a ++ g a))

theorem perm_flatMap_congr {α β : Type} {l : List α} {f g : α → List β}
    (h : ∀ a ∈ l, List.Perm (f a) (g a)) : List.Perm (l.flatMap f) (l.flatMap g) := by
  induction l with
  | nil => simp
  | cons a t ih =>
    simp only [List.flatMap_cons]
    exact (h a (List.mem_cons_self a t)).append
      (ih fun b hb => h b (List.mem_cons_of_mem a hb))

theorem enum_flatMap_snd {α β : Type} (l : List α) (f : α → List β) :
    l.enum.flatMap (fun ic => f ic.2) = l.flatMap f := by
  conv_rhs => rw [← List.enum_map_snd l]
  rw [List.flatMap_map]

theorem flatMap_eq_nil_of {α β : Type} {l : List α} {f : α → List β}
    (h : ∀ a ∈ l, f a = []) : l.flatMap f = [] := by
  induction l with
  | nil => rfl
  | cons a t ih =>
    simp only [List.flatMap_cons, h a (List.mem_cons_self a t), List.nil_append]
    exact ih fun b hb => h b (List.mem_cons_of_mem a hb)

theorem flatMap_if_singleton {cs : List String} {x : String} (q : Question)
    (hnd : cs.Nodup) (hx : x ∈ cs) :
    (cs.flatMap fun c => if x = c then [q] else []) = [q] := by
  induction cs with
  | nil => cases hx
  | cons c t ih =>
    rcases List.nodup_cons.mp hnd with ⟨hcnot, hndt⟩
    by_cases he : x = c
    · subst he
      rw [List.flatMap_cons, if_pos rfl]
      have hnil : (t.flatMap fun c => if x = c then [q] else []) = [] := by
        refine flatMap_eq_nil_of ?_
        intro a ha
        apply if_neg
        intro hxa
        rw [← hxa] at ha
        exact hcnot ha
      rw [hnil, List.append_nil]
    · rw [List.flatMap_cons, if_neg he, List.nil_append]
      exact ih hndt ((List.mem_cons.mp hx).resolve_left he)

/-- The chapter buckets partition the catalog: concatenated in chapter order
they are a permutation of the catalog (every question is classified into
exactly one of the pairwise-distinct chapters). -/
theorem flatMap_buckets_perm (classify : Question → String) (items : List Question)
    (hcl : ∀ q ∈ items, classify q ∈ CHAPTERS) :
    List.Perm (CHAPTERS.flatMap (buildChapterBuckets classify items)) items := by
  have hnd : CHAPTERS.Nodup := by decide
  unfold buildChapterBuckets
  induction items with
  | nil =>
    rw [flatMap_eq_nil_of (fun c _ => List.filter_nil _)]
  | cons q rest ih =>
    have hfun : (fun c => (q :: rest).filter (fun q' => classify q' == c)) =
        (fun c => (if classify q = c then [q] else []) ++
          rest.filter (fun q' => classify q' == c)) := by
      funext c
      rw [List.filter_cons]
      by_cases h : classify q = c
      · rw [if_pos (by simp [h]), if_pos h, List.singleton_append]
      · rw [if_neg (by simp [h]), if_neg h, List.nil_append]
    rw [hfun]
    refine List.Perm.trans (flatMap_append_perm CHAPTERS _ _).symm ?_
    rw [flatMap_if_singleton q hnd (hcl q (List.mem_cons_self q rest))]
    rw [List.singleton_append]
    exact (ih (fun q' hq' => hcl q' (List.mem_cons_of_mem q hq'))).cons q

theorem sum_map_le_card_mul {α : Type} (l : List α) (g : α → Nat) (n : Nat)
    (h : ∀ a ∈ l, g a ≤ n) : (l.map g).sum ≤ l.length * n := by
  induction l with
  | nil => simp
  | cons a t ih =>
    simp only [List.map_cons, List.sum_cons, List.length_cons, Nat.succ_mul]
    have h1 := h a (List.mem_cons_self a t)
    have h2 := ih fun b hb => h b (List.mem_cons_of_mem a hb)
    omega

theorem dedupByIds_eq_self {l : List Question} {ids : List String}
    (hnd : (l.map Question.id).Nodup) (hne : ∀ q ∈ l, q.id ≠ "")
    (hdisj : ∀ q ∈ l, q.id ∉ ids) : dedupByIds l ids = l := by
  induction l generalizing ids with
  | nil => rfl
  | cons q rest ih =>
    rw [List.map_cons] at hnd
    rcases List.nodup_cons.mp hnd with ⟨hqnot, hndrest⟩
    rw [dedupByIds, if_pos ⟨hne q (List.mem_cons_self q rest), hdisj q (List.mem_cons_self q rest)⟩]
    congr 1
    refine ih hndrest (fun q' hq' => hne q' (List.mem_cons_of_mem q hq')) ?_
    intro q' hq' hmem
    rcases List.mem_cons.mp hmem with he | hin
    · exact hqnot (he ▸ List.mem_map_of_mem Question.id hq')
    · exact hdisj q' (List.mem_cons_of_mem q hq') hin

theorem unseenPool_empty_seen (classify : Question → String) (items : List Question)
    (c : String) : unseenPool classify items [] c = buildChapterBuckets classify items c := by
  unfold unseenPool
  exact List.filter_eq_self.mpr (fun a _ => by simp)

/-- Stage 1 splits each chapter's shuffled unseen pool by take/drop, so with
an empty seen-set `chosen ++ leftovers` is a permutation of the catalog. -/
theorem chosen1_leftovers_perm (roundSize : Nat) (classify : Question → String)
    (items : List Question) (sh : Nat → List Question → List Question)
    (hsh : ∀ k l, List.Perm (sh k l) l)
    (hcl : ∀ q ∈ items, classify q ∈ CHAPTERS) :
    List.Perm
      (pickChosen1 roundSize classify items [] sh ++
        pickLeftovers roundSize classify items [] sh) items := by
  unfold pickChosen1 pickLeftovers
  refine List.Perm.trans (flatMap_append_perm _ _ _) ?_
  have hfe : (fun ic : Nat × String =>
      (sh ic.1 (unseenPool classify items [] ic.2)).take
          (min (roundSize / CHAPTERS.length) (sh ic.1 (unseenPool classify items [] ic.2)).length) ++
        (sh ic.1 (unseenPool classify items [] ic.2)).drop
          (min (roundSize / CHAPTERS.length) (sh ic.1 (unseenPool classify items [] ic.2)).length)) =
      (fun ic : Nat × String => sh ic.1 (unseenPool classify items [] ic.2)) := by
    funext ic
    exact List.take_append_drop _ _
  rw [hfe]
  refine List.Perm.trans (perm_flatMap_congr (fun ic _ => hsh ic.1 _)) ?_
  rw [enum_flatMap_snd CHAPTERS (unseenPool classify items [])]
  have hfe2 : unseenPool classify items ([] : List String) =
      buildChapterBuckets classify items :=
    funext (unseenPool_empty_seen classify items)
  rw [hfe2]
  exact flatMap_buckets_perm classify items hcl

/-- Stage 1 takes at most `round_size` questions in total: each of the five
chapters contributes at most `round_size / 5`. -/
theorem chosen1_length_le (roundSize : Nat) (classify : Question → String)
    (items : List Question) (seen : List String)
    (sh : Nat → List Question → List Question) :
    (pickChosen1 roundSize classify items seen sh).length ≤ roundSize := by
  unfold pickChosen1
  rw [List.length_flatMap]
  simp only [Function.comp_def]
  have hb : ∀ ic ∈ CHAPTERS.enum,
      ((sh ic.1 (unseenPool classify items seen ic.2)).take
        (min (roundSize / CHAPTERS.length)
          (sh ic.1 (unseenPool classify items seen ic.2)).length)).length ≤
        roundSize / CHAPTERS.length := by
    intro ic _
    rw [List.length_take]
    omega
  have hsum := sum_map_le_card_mul CHAPTERS.enum _ (roundSize / CHAPTERS.length) hb
  rw [List.enum_length, Nat.mul_comm] at hsum
  have hdiv := Nat.div_mul_le_self roundSize CHAPTERS.length
  omega

/-- C1 (amended): for a catalog of at least `round_size` questions with
pairwise-distinct *non-empty* ids and an empty seen-set, the sampler
returns exactly `round_size` questions with no duplicate ids, whatever the
shuffles do. -/
theorem pick_round_size_nodup (roundSize : Nat) (classify : Question → String)
    (items : List Question) (sh : Nat → List Question → List Question)
    (hsh : ∀ k l, List.Perm (sh k l) l)
    (hcl : ∀ q ∈ items, classify q ∈ CHAPTERS)
    (hids : (items.map Question.id).Nodup)
    (hne : ∀ q ∈ items, q.id ≠ "")
    (hsize : roundSize ≤ items.length) :
    (pickRoundQuestions roundSize classify items [] sh).length = roundSize ∧
    ((pickRoundQuestions roundSize classify items [] sh).map Question.id).Nodup := by
  have hperm1 := chosen1_leftovers_perm roundSize classify items sh hsh hcl
  have hc1le := chosen1_length_le roundSize classify items [] sh
  have hlen1 : (pickChosen1 roundSize classify items [] sh).length +
      (pickLeftovers roundSize classify items [] sh).length = items.length := by
    have := hperm1.length_eq
    rw [List.length_append] at this
    exact this
  -- stage 2: exactly roundSize items, id-nodup, all from the catalog
  have hstage2 : (pickChosen2 roundSize classify items [] sh).length = roundSize ∧
      ((pickChosen2 roundSize classify items [] sh).map Question.id).Nodup ∧
      (∀ q ∈ pickChosen2 roundSize classify items [] sh, q ∈ items) := by
    by_cases hlt : (pickChosen1 roundSize classify items [] sh).length < roundSize
    · have hshlen := (hsh CHAPTERS.length (pickLeftovers roundSize classify items [] sh)).length_eq
      have hpermA : List.Perm
          (pickChosen1 roundSize classify items [] sh ++
            sh CHAPTERS.length (pickLeftovers roundSize classify items [] sh)) items :=
        List.Perm.trans
          ((hsh CHAPTERS.length (pickLeftovers roundSize classify items [] sh)).append_left _)
          hperm1
      have hsub : List.Sublist (pickChosen2 roundSize classify items [] sh)
          (pickChosen1 roundSize classify items [] sh ++
            sh CHAPTERS.length (pickLeftovers roundSize classify items [] sh)) := by
        rw [pickChosen2, if_pos hlt]
        exact (List.take_sublist _ _).append_left _
      refine ⟨?_, ?_, ?_⟩
      · rw [pickChosen2, if_pos hlt, List.length_append, List.length_take, hshlen]
        omega
      · exact (((hpermA.map Question.id).nodup_iff).mpr hids).sublist (hsub.map Question.id)
      · exact fun q hq => hpermA.subset (hsub.subset hq)
    · have hc1eq : (pickChosen1 roundSize classify items [] sh).length = roundSize := by omega
      have hsub : List.Sublist (pickChosen2 roundSize classify items [] sh)
          (pickChosen1 roundSize classify items [] sh ++
            pickLeftovers roundSize classify items [] sh) := by
        rw [pickChosen2, if_neg hlt]
        exact List.sublist_append_left _ _
      refine ⟨?_, ?_, ?_⟩
      · rw [pickChosen2, if_neg hlt]
        exact hc1eq
      · exact (((hperm1.map Question.id).nodup_iff).mpr hids).sublist (hsub.map Question.id)
      · exact fun q hq => hperm1.subset (hsub.subset hq)
  obtain ⟨hlen2, hnodup2, hmem2⟩ := hstage2
  -- stage 3 is skipped because stage 2 already has roundSize questions
  have h3 : pickChosen3 roundSize classify items [] sh =
      pickChosen2 roundSize classify items [] sh := by
    rw [pickChosen3, if_neg (by omega)]
  -- the dedup pass keeps everything (distinct non-empty ids)
  have hdedup : dedupByIds (pickChosen2 roundSize classify items [] sh) [] =
      pickChosen2 roundSize classify items [] sh :=
    dedupByIds_eq_self hnodup2 (fun q hq => hne q (hmem2 q hq))
      (fun q _ hmem => List.not_mem_nil _ hmem)
  have hfinal : pickRoundQuestions roundSize classify items [] sh =
      (sh (CHAPTERS.length + 2) (pickChosen2 roundSize classify items [] sh)).take roundSize := by
    rw [pickRoundQuestions, h3, hdedup]
  constructor
  · rw [hfinal, List.length_take,
      (hsh (CHAPTERS.length + 2) (pickChosen2 roundSize classify items [] sh)).length_eq,
      hlen2, Nat.min_self]
  · rw [hfinal]
    refine List.Nodup.sublist ((List.take_sublist _ _).map Question.id) ?_
    exact (((hsh (CHAPTERS.length + 2)
      (pickChosen2 roundSize classify items [] sh)).map Question.id).nodup_iff).mpr hnodup2

/-- C1 (counterexample): a one-question catalog whose single id is the empty
string.  The ids are (vacuously) pairwise distinct and the seen-set is
empty, yet the round comes back empty instead of holding `round_size = 1`
question: the final de-duplication (`if qid and qid not in seen_ids`) drops
every falsy id. -/
theorem pick_round_empty_id_cex :
    (([{ qtype := "term" }] : List Question).map Question.id).Nodup ∧
    (1 : Nat) ≤ ([{ qtype := "term" }] : List Question).length ∧
    pickRoundQuestions 1 (fun _ => "حالات المادة") [{ qtype := "term" }] []
      (fun _ l => l) = [] := by
  refine ⟨by decide, by decide, rfl⟩

/-- C1 (witness): the amended size/no-duplicate invariant evaluated on a
one-question catalog with a non-empty id and the identity shuffles. -/
theorem pick_round_size_nodup_witness :
    (pickRoundQuestions 1 (fun _ => "حالات المادة")
      [{ id := "a", qtype := "term" }] [] (fun _ l => l)).length = 1 ∧
    ((pickRoundQuestions 1 (fun _ => "حالات المادة")
      [{ id := "a", qtype := "term" }] [] (fun _ l => l)).map Question.id).Nodup :=
  pick_round_size_nodup 1 (fun _ => "حالات المادة")
    [{ id := "a", qtype := "term" }] (fun _ l => l)
    (fun _ l => List.Perm.refl l) (by decide) (by decide) (by decide) (by decide)

/-- C2: when the seen-set covers the whole (non-empty) catalog, the sampler
returns the *empty* list: the stage-3 top-up loop (lines 376-381) still
requires `item.get("id") not in seen_questions`, so — contrary to its own
comment "take any questions" and to the spec — seen questions are never
pooled back in and no repeats are possible. -/
theorem pick_round_all_seen_empty :
    pickRoundQuestions ROUND_SIZE (fun _ => "حالات المادة")
      [{ id := "a", qtype := "term" }] ["a"] (fun _ l => l) = [] := by
  rfl
